import Mathlib

/-!
Shallow embedding of the nested ellipsoidal sampler
(`pints/_nested/_ellipsoid.py`, class `NestedEllipsoidSampler`) and proofs
about it.  Machine reals are modelled by exact arithmetic (`ℚ` for the
executable control logic and the MVEE fixed-point iteration, `ℝ` for the
geometric sampling argument); `numpy.linalg` failures (`LinAlgError` on a
singular matrix, Python `ZeroDivisionError`) are modelled with `Except`.
-/

open Matrix

/-- Errors raised by the embedded code: `zeroDivision` models Python's
`ZeroDivisionError` from `%` with a zero modulus, `singularMatrix` models
`numpy.linalg.LinAlgError` raised by `la.inv` on an exactly singular matrix,
and `noConvergence` is the fuel-exhaustion marker used to model the
unbounded `while` loop of `_minimum_volume_ellipsoid`. -/
inductive MErr where
  | zeroDivision
  | singularMatrix
  | noConvergence
deriving DecidableEq

/-- Validation errors raised by the hyper-parameter setters. -/
inductive SErr where
  | badRate
  | badGap
  | badEnlargement
  | badRejection
deriving DecidableEq

instance {ε α : Type} [DecidableEq ε] [DecidableEq α] : DecidableEq (Except ε α) := fun x y =>
  match x, y with
  | .ok a, .ok b =>
      if h : a = b then .isTrue (by rw [h]) else .isFalse (by intro hc; injection hc; contradiction)
  | .error a, .error b =>
      if h : a = b then .isTrue (by rw [h]) else .isFalse (by intro hc; injection hc; contradiction)
  | .ok _, .error _ => .isFalse (by intro hc; exact Except.noConfusion hc)
  | .error _, .ok _ => .isFalse (by intro hc; exact Except.noConfusion hc)

/-- Python's integer `%` operator on non-negative operands: raises
`ZeroDivisionError` when the modulus is `0`, otherwise returns `a % b`. -/
def pymod (a b : ℕ) : Except MErr ℕ :=
  if b = 0 then .error .zeroDivision else .ok (a % b)

/-- Refit decision of `NestedEllipsoidSampler.ask` (lines 84-92 of the
source): the ellipsoid is refit when `(i + 1) % rejection_samples == 0`,
or else when `i > rejection_samples` and
`(i + 1 - rejection_samples) % ellipsoid_update_gap == 0`. -/
def refitDecision (rejection_samples ellipsoid_update_gap i : ℕ) : Except MErr Bool :=
  (pymod (i + 1) rejection_samples).bind fun m =>
    if m = 0 then .ok true
    else if rejection_samples < i then
      (pymod (i + 1 - rejection_samples) ellipsoid_update_gap).bind fun m2 =>
        .ok (decide (m2 = 0))
    else .ok false

/-- Hyper-parameter state of the sampler: the fields mutated by the four
setters (`_rejection_samples` is stored as given, hence `ℚ`;
`_ellipsoid_update_gap` is stored after Python's `int` conversion). -/
structure HyperParams where
  active_points_rate : ℚ
  ellipsoid_update_gap : ℤ
  enlargement_factor : ℚ
  rejection_samples : ℚ
deriving DecidableEq

/-- Python's `int()` conversion on a real number: truncation toward zero. -/
def pyint (x : ℚ) : ℤ :=
  if 0 ≤ x then ⌊x⌋ else ⌈x⌉

/-- Embeds `set_enlargement_factor` (lines 105-114): raises when the
argument is `≤ 1`, otherwise stores it.  The error value carries the
state left behind by the raising call (unchanged, since validation
precedes the assignment). -/
def set_enlargement_factor (s : HyperParams) (x : ℚ) : Except (SErr × HyperParams) HyperParams :=
  if x ≤ 1 then .error (.badEnlargement, s)
  else .ok { s with enlargement_factor := x }

/-- Embeds `set_rejection_samples` (lines 116-123): raises when the
argument is negative, otherwise stores it as given. -/
def set_rejection_samples (s : HyperParams) (x : ℚ) : Except (SErr × HyperParams) HyperParams :=
  if x < 0 then .error (.badRejection, s)
  else .ok { s with rejection_samples := x }

/-- Embeds `set_ellipsoid_update_gap` (lines 125-136): converts the
argument with `int`, raises when the converted value is `≤ 1`, otherwise
stores the converted value. -/
def set_ellipsoid_update_gap (s : HyperParams) (x : ℚ) : Except (SErr × HyperParams) HyperParams :=
  if pyint x ≤ 1 then .error (.badGap, s)
  else .ok { s with ellipsoid_update_gap := pyint x }

/-- Modelled from the spec: `set_active_points_rate` lives in the
`NestedSampler` base class, which is not part of the sources at hand; per
the spec each individual setter validates its argument and fails with a
descriptive error before mutating state.  The validity predicate for the
rate is not specified, so it is taken as a parameter `rateOk`. -/
def set_active_points_rate (rateOk : ℚ → Bool) (s : HyperParams) (x : ℚ) :
    Except (SErr × HyperParams) HyperParams :=
  if rateOk x then .ok { s with active_points_rate := x }
  else .error (.badRate, s)

/-- Embeds `set_hyper_parameters` (lines 145-161): the three setters are
invoked in sequence on the components of `x`; an exception from a later
setter propagates with the mutations of the earlier setters already
applied (Python objects are mutated in place). -/
def set_hyper_parameters (rateOk : ℚ → Bool) (s : HyperParams) (x : Fin 3 → ℚ) :
    Except (SErr × HyperParams) HyperParams :=
  match set_active_points_rate rateOk s (x 0) with
  | .error e => .error e
  | .ok s1 =>
    match set_ellipsoid_update_gap s1 (x 1) with
    | .error e => .error e
    | .ok s2 => set_enlargement_factor s2 (x 2)

/-- Determinant of a rational matrix by Laplace expansion along the first
column; an executable stand-in for the determinant used by `la.inv`. -/
def detF : {n : ℕ} → Matrix (Fin n) (Fin n) ℚ → ℚ
  | 0, _ => 1
  | n + 1, X =>
    ∑ i : Fin (n + 1),
      (-1 : ℚ) ^ (i : ℕ) * X i 0 * detF (Matrix.of fun a b => X (i.succAbove a) b.succ)

/-- Transposed cofactor matrix (the adjugate), entrywise by minors. -/
def cofT : {n : ℕ} → Matrix (Fin n) (Fin n) ℚ → Matrix (Fin n) (Fin n) ℚ
  | 0, _ => Matrix.of fun i _ => i.elim0
  | _ + 1, X =>
    Matrix.of fun i j =>
      (-1 : ℚ) ^ ((i : ℕ) + (j : ℕ)) *
        detF (Matrix.of fun a b => X (j.succAbove a) (i.succAbove b))

/-- Executable model of `numpy.linalg.inv`: returns the inverse
(adjugate over determinant) when the matrix is exactly nonsingular, and
`none` (the `LinAlgError` case) when the determinant is zero.  Note the
failure condition is exact singularity only: there is no conditioning or
near-singularity check, mirroring `la.inv`. -/
def invF? {n : ℕ} (X : Matrix (Fin n) (Fin n) ℚ) : Option (Matrix (Fin n) (Fin n) ℚ) :=
  if detF X = 0 then none else some ((detF X)⁻¹ • cofT X)

/-- Model of `np.argmax`: index of the first maximal entry (`none` only
when the index type is empty).  Index `0` wins unless the maximum over
the remaining indices is strictly larger. -/
def argmaxQ : {N : ℕ} → (Fin N → ℚ) → Option (Fin N)
  | 0, _ => none
  | _ + 1, M =>
    match argmaxQ (fun j => M j.succ) with
    | none => some 0
    | some b => if M 0 < M b.succ then some b.succ else some 0

/-- Homogeneous lift used by `_minimum_volume_ellipsoid` (line 169):
`Q = np.column_stack((points, np.ones(N))).T`, a `(d+1) × N` matrix whose
first `d` rows are the point coordinates and whose last row is ones. -/
def mveeQ {N dd : ℕ} (P : Fin N → Fin dd → ℚ) : Matrix (Fin (dd + 1)) (Fin N) ℚ :=
  Matrix.of fun a j => if h : (a : ℕ) < dd then P j ⟨a, h⟩ else 1

/-- Initial weight vector `u = np.ones(N) / N` (line 171). -/
def mveeInitU (N : ℕ) : Fin N → ℚ := fun _ => 1 / (N : ℚ)

/-- Per-point scores of the loop body as the source computes them
(line 175): `M = np.diag(np.dot(np.dot(Q.T, la.inv(X)), Q))`. -/
def mveeScores {m N : ℕ} (Q : Matrix (Fin m) (Fin N) ℚ) (Xinv : Matrix (Fin m) (Fin m) ℚ) :
    Fin N → ℚ :=
  fun j => (Qᵀ * Xinv * Q) j j

/-- Per-point scores as the spec words them: the Mahalanobis-like score
of point `j` is the quadratic form of column `j` of `Q` in `X⁻¹`. -/
def mveeSpecScores {m N : ℕ} (Q : Matrix (Fin m) (Fin N) ℚ) (Xinv : Matrix (Fin m) (Fin m) ℚ) :
    Fin N → ℚ :=
  fun j => (fun a => Q a j) ⬝ᵥ Xinv.mulVec fun a => Q a j

/-- One iteration of the `while` loop of `_minimum_volume_ellipsoid`
(lines 174-179): form `X = Q diag(u) Qᵀ`, invert it (raising on a
singular matrix, as `la.inv` does), score every point, find the argmax,
compute the step size, and rescale the weights with the step added at the
argmax.  The unreachable `argmaxQ` fallback can only fire for `N = 0`,
where the inversion of the all-zero `X` has already failed. -/
def mveeStep {m N : ℕ} (Q : Matrix (Fin m) (Fin N) ℚ) (d : ℕ) (u : Fin N → ℚ) :
    Except MErr (Fin N → ℚ) :=
  match invF? (Q * Matrix.diagonal u * Qᵀ) with
  | none => .error .singularMatrix
  | some Xinv =>
    match argmaxQ (mveeScores Q Xinv) with
    | none => .error .singularMatrix
    | some jdx =>
      let s := (mveeScores Q Xinv jdx - d - 1) / ((d + 1) * (mveeScores Q Xinv jdx - 1))
      .ok fun j => (1 - s) * u j + if j = jdx then s else 0

/-- Same loop iteration with the scores computed per the spec wording. -/
def mveeSpecStep {m N : ℕ} (Q : Matrix (Fin m) (Fin N) ℚ) (d : ℕ) (u : Fin N → ℚ) :
    Except MErr (Fin N → ℚ) :=
  match invF? (Q * Matrix.diagonal u * Qᵀ) with
  | none => .error .singularMatrix
  | some Xinv =>
    match argmaxQ (mveeSpecScores Q Xinv) with
    | none => .error .singularMatrix
    | some jdx =>
      let s := (mveeSpecScores Q Xinv jdx - d - 1) /
        ((d + 1) * (mveeSpecScores Q Xinv jdx - 1))
      .ok fun j => (1 - s) * u j + if j = jdx then s else 0

/-- The `while err > tol` loop (lines 170-181), with fuel standing in for
the unbounded iteration: step, then stop with the new weights as soon as
the Euclidean norm of the weight change is at most `tol` (compared in
squared form, equivalent over the reals for the nonnegative `tol` the
source uses). -/
def mveeLoop {m N : ℕ} (Q : Matrix (Fin m) (Fin N) ℚ) (d : ℕ) (tol : ℚ) :
    ℕ → (Fin N → ℚ) → Except MErr (Fin N → ℚ)
  | 0, _ => .error .noConvergence
  | fuel + 1, u =>
    match mveeStep Q d u with
    | .error e => .error e
    | .ok u2 =>
      if (∑ j, (u2 j - u j) ^ 2) ≤ tol ^ 2 then .ok u2
      else mveeLoop Q d tol fuel u2

/-- Loop of the spec-worded algorithm. -/
def mveeSpecLoop {m N : ℕ} (Q : Matrix (Fin m) (Fin N) ℚ) (d : ℕ) (tol : ℚ) :
    ℕ → (Fin N → ℚ) → Except MErr (Fin N → ℚ)
  | 0, _ => .error .noConvergence
  | fuel + 1, u =>
    match mveeSpecStep Q d u with
    | .error e => .error e
    | .ok u2 =>
      if (∑ j, (u2 j - u j) ^ 2) ≤ tol ^ 2 then .ok u2
      else mveeSpecLoop Q d tol fuel u2

/-- Embeds `_minimum_volume_ellipsoid` (lines 163-187): run the weight
iteration from the uniform start, then return
`A = la.inv(pointsᵀ diag(u) points - outer(c, c)) / d` and
`c = np.dot(u, points)`, raising on a singular final covariance. -/
def minimum_volume_ellipsoid {N dd : ℕ} (P : Fin N → Fin dd → ℚ) (tol : ℚ) (fuel : ℕ) :
    Except MErr (Matrix (Fin dd) (Fin dd) ℚ × (Fin dd → ℚ)) :=
  match mveeLoop (mveeQ P) dd tol fuel (mveeInitU N) with
  | .error e => .error e
  | .ok u =>
    let Pm : Matrix (Fin N) (Fin dd) ℚ := Matrix.of fun j k => P j k
    let c : Fin dd → ℚ := Matrix.vecMul u Pm
    match invF? (Pmᵀ * Matrix.diagonal u * Pm - Matrix.of fun a b => c a * c b) with
    | none => .error .singularMatrix
    | some S => .ok ((dd : ℚ)⁻¹ • S, c)

/-- The MVEE computation as the spec words it: centroid
`c = Σ u_j point_j` and `A = [(Σ u_j point_j point_jᵀ) - c cᵀ]⁻¹ / d`,
with the loop scored per point. -/
def mveeSpec {N dd : ℕ} (P : Fin N → Fin dd → ℚ) (tol : ℚ) (fuel : ℕ) :
    Except MErr (Matrix (Fin dd) (Fin dd) ℚ × (Fin dd → ℚ)) :=
  match mveeSpecLoop (mveeQ P) dd tol fuel (mveeInitU N) with
  | .error e => .error e
  | .ok u =>
    let c : Fin dd → ℚ := fun k => ∑ j, u j * P j k
    match invF? (Matrix.of fun a b => (∑ j, u j * P j a * P j b) - c a * c b) with
    | none => .error .singularMatrix
    | some S => .ok ((dd : ℚ)⁻¹ • S, c)

/-- Mutable state of the sampler read and written by `ask`: the iteration
counter `_i`, the hyper-parameters, the active-point matrix `_m_active`
(whose rows carry the `d` parameter coordinates followed by one extra
log-likelihood column), and the cached ellipsoid `_A`, `_centroid`. -/
structure AskState (N d : ℕ) where
  i : ℕ
  rejection_samples : ℕ
  ellipsoid_update_gap : ℕ
  enlargement_factor : ℚ
  m_active : Fin N → Fin (d + 1) → ℚ
  A : Matrix (Fin d) (Fin d) ℚ
  centroid : Fin d → ℚ

/-- External collaborators of `ask`: the value the prior draw
`_log_prior.sample()[0]` produces on this call, and the (randomness
oracle for the) uniform-within-ellipsoid draw `_draw_from_ellipsoid`
performed on the covariance matrix `la.inv((1/f)·A)` and the centroid.
The geometric content of that draw is embedded separately over `ℝ` as
`draw_from_ellipsoid`. -/
structure AskEnv (N d : ℕ) where
  prior_sample : Fin d → ℚ
  draw : Matrix (Fin d) (Fin d) ℚ → (Fin d → ℚ) → Fin d → ℚ

/-- The slice `self._m_active[:, :self._dimension]` (lines 86 and 92). -/
def activeParams {N d : ℕ} (s : AskState N d) : Fin N → Fin d → ℚ :=
  fun j k => s.m_active j k.castSucc

/-- Embeds `_reject_ellipsoid_sample` (lines 189-195): invert
`(1 / enlargement_factor) * A` (raising on a singular matrix, as `la.inv`
does) and draw one point from the resulting ellipsoid. -/
def reject_ellipsoid_sample {N d : ℕ} (env : AskEnv N d) (enlargement_factor : ℚ)
    (A : Matrix (Fin d) (Fin d) ℚ) (centroid : Fin d → ℚ) : Except MErr (Fin d → ℚ) :=
  match invF? (enlargement_factor⁻¹ • A) with
  | none => .error .singularMatrix
  | some cov => .ok (env.draw cov centroid)

/-- Proposal phase of `ask` (lines 94-103): a prior draw while
`i < rejection_samples`, an (enlarged-)ellipsoid draw afterwards. -/
def askDraw {N d : ℕ} (env : AskEnv N d) (s : AskState N d) :
    Except (MErr × AskState N d) ((Fin d → ℚ) × AskState N d) :=
  if s.i < s.rejection_samples then .ok (env.prior_sample, s)
  else
    match reject_ellipsoid_sample env s.enlargement_factor s.A s.centroid with
    | .error e => .error (e, s)
    | .ok p => .ok (p, s)

/-- Embeds `NestedEllipsoidSampler.ask` (lines 74-103).  The error value
carries the state left behind by the raising call; the only mutation
`ask` performs is the assignment of `_A` and `_centroid` on a refit, and
both failure points of the refit branch precede that assignment.  `fuel`
bounds the MVEE `while` loop; the MVEE tolerance is the source default
`tol = 0.001`. -/
def ask {N d : ℕ} (env : AskEnv N d) (fuel : ℕ) (s : AskState N d) :
    Except (MErr × AskState N d) ((Fin d → ℚ) × AskState N d) :=
  match refitDecision s.rejection_samples s.ellipsoid_update_gap s.i with
  | .error e => .error (e, s)
  | .ok true =>
    match minimum_volume_ellipsoid (activeParams s) (1 / 1000) fuel with
    | .error e => .error (e, s)
    | .ok Ac => askDraw env { s with A := Ac.1, centroid := Ac.2 }
  | .ok false => askDraw env s

/-- State left behind by a call to `ask`, whether it returned a proposal
or raised. -/
def askPost {N d : ℕ} :
    Except (MErr × AskState N d) ((Fin d → ℚ) × AskState N d) → AskState N d
  | .error (_, s) => s
  | .ok (_, s) => s

/-- Embeds the point constructed by `_draw_from_ellipsoid`
(lines 197-242) for one requested point, over `ℝ`: the standard-normal
draw `pt` is scaled by `fac = r^(1/n) / sqrt(Σ pt_k²)` onto the ball of
radius `r^(1/n)`, stretched componentwise by the square roots of the
eigenvalues `e`, rotated by the eigenvector matrix `v`, and translated by
the centroid.  The eigendecomposition `(e, v)` of the covariance matrix
(which the source obtains from `la.eig` and then permutes) is passed in
symbolically. -/
noncomputable def draw_from_ellipsoid {n : ℕ} (e : Fin n → ℝ) (v : Matrix (Fin n) (Fin n) ℝ)
    (cent : Fin n → ℝ) (r : ℝ) (pt : Fin n → ℝ) : Fin n → ℝ :=
  fun j =>
    v.mulVec
      (fun k =>
        Real.sqrt (e k) *
          (r ^ ((1 : ℝ) / (n : ℝ)) / Real.sqrt (∑ k2, pt k2 ^ 2) * pt k)) j
      + cent j

/-- Concrete environment for evaluating `ask` at small instances. -/
def envW : AskEnv 1 1 where
  prior_sample := fun _ => 7
  draw := fun _ c => c

/-- Concrete sampler state with the given rejection-sample count and
iteration counter, update gap `2` and enlargement factor `3/2` (the
concrete scenario of the spec). -/
def sW (R i : ℕ) : AskState 1 1 where
  i := i
  rejection_samples := R
  ellipsoid_update_gap := 2
  enlargement_factor := 3 / 2
  m_active := fun _ _ => 0
  A := 1
  centroid := fun _ => 0

/-- Concrete hyper-parameter state before a `set_hyper_parameters` call. -/
def hpW : HyperParams where
  active_points_rate := 1 / 2
  ellipsoid_update_gap := 20
  enlargement_factor := 3 / 2
  rejection_samples := 1000

/-- Hyper-parameter vector with a valid rate `1/4`, a valid gap `5` and
the invalid enlargement factor `1`. -/
def xBadW : Fin 3 → ℚ := fun j => if j = 0 then 1 / 4 else if j = 1 then 5 else 1

/-- The state `hpW` after the rate and gap setters have run on `xBadW`
but before the enlargement setter raises. -/
def hpWMut : HyperParams :=
  { hpW with active_points_rate := 1 / 4, ellipsoid_update_gap := 5 }

/-- Two nearly coincident 1-dimensional points, `0` and `1/1000000`: a
nearly degenerate point cloud whose scatter and covariance matrices are
near-singular (tiny but nonzero determinant). -/
def Pnear : Fin 2 → Fin 1 → ℚ := fun j _ => if j = 0 then 0 else 1 / 1000000

/-- Two exactly coincident 1-dimensional points: a degenerate cloud
whose weighted scatter matrix is exactly singular. -/
def Pcoin : Fin 2 → Fin 1 → ℚ := fun _ _ => 0

/-- Two distinct points on the line, a non-degenerate 1-dimensional
simplex. -/
def Pseg : Fin 2 → Fin 1 → ℚ := fun j _ => if j = 0 then 0 else 1

/-- The uniform weight vector on two points. -/
def uHalf : Fin 2 → ℚ := fun _ => 1 / 2

theorem mod_eq_zero_iff_posMul (a b : ℕ) (ha : 0 < a) :
    a % b = 0 ↔ ∃ k, 0 < k ∧ a = k * b := by
  constructor
  · intro h
    obtain ⟨k, hk⟩ := Nat.dvd_of_mod_eq_zero h
    rcases Nat.eq_zero_or_pos k with h0 | h0
    · subst h0
      omega
    · exact ⟨k, h0, by rw [hk, Nat.mul_comm]⟩
  · rintro ⟨k, hk, rfl⟩
    exact Nat.mul_mod_left k b

/-- Claim C1, counterexample: with `rejection_samples = 5` and
`ellipsoid_update_gap = 2` the code refits at iteration `i = 9`, because
`(9 + 1) % 5 == 0`, while the claimed schedule (`i = R - 1`, or `i ≥ R`
with `i + 1 - R` a positive multiple of `G`) does not contain `9`. -/
theorem refit_schedule_cex :
    refitDecision 5 2 9 = .ok true ∧
      ¬ (9 = 5 - 1 ∨ (5 ≤ 9 ∧ ∃ k, 0 < k ∧ 9 + 1 - 5 = k * 2)) := by
  refine ⟨rfl, ?_⟩
  rintro (h | ⟨-, k, hk, he⟩) <;> omega

/-- Claim C1, amended: for `rejection_samples = R > 0` and
`ellipsoid_update_gap = G > 1`, `ask` refits the bounding ellipsoid
exactly when `i + 1` is a positive multiple of `R` (so at iterations
`R - 1`, `2R - 1`, `3R - 1`, ...), or when `i > R` and `i + 1 - R` is a
positive multiple of `G`; for `R = 5`, `G = 2` refits occur at
iterations 4, 6, 8, 9, 10, 12, 14, ... -/
theorem refit_schedule (R G i : ℕ) (hR : 0 < R) (hG : 1 < G) :
    refitDecision R G i = .ok true ↔
      (∃ k, 0 < k ∧ i + 1 = k * R) ∨ (R < i ∧ ∃ k, 0 < k ∧ i + 1 - R = k * G) := by
  have hR0 : ¬ R = 0 := by omega
  have hG0 : ¬ G = 0 := by omega
  unfold refitDecision pymod
  simp only [if_neg hR0, if_neg hG0, Except.bind]
  split_ifs with h1 h2
  · exact iff_of_true rfl (Or.inl ((mod_eq_zero_iff_posMul (i + 1) R (by omega)).mp h1))
  · simp only [Except.ok.injEq, decide_eq_true_eq]
    rw [mod_eq_zero_iff_posMul (i + 1 - R) G (by omega)]
    constructor
    · intro h
      exact Or.inr ⟨h2, h⟩
    · rintro (⟨k, hk, he⟩ | ⟨-, h⟩)
      · exact absurd ((mod_eq_zero_iff_posMul (i + 1) R (by omega)).mpr ⟨k, hk, he⟩) h1
      · exact h
  · refine iff_of_false (fun hc => ?_) ?_
    · exact Bool.noConfusion (Except.ok.inj hc)
    · rintro (⟨k, hk, he⟩ | ⟨hlt, -⟩)
      · exact h1 ((mod_eq_zero_iff_posMul (i + 1) R (by omega)).mpr ⟨k, hk, he⟩)
      · exact h2 hlt

theorem refit_schedule_wit : refitDecision 5 2 8 = .ok true :=
  (refit_schedule 5 2 8 (by omega) (by omega)).mpr (Or.inr ⟨by omega, 2, by omega, by omega⟩)

/-- Claim C2, counterexample: with `rejection_samples` set to `0`, the
modulus test of `ask` is not guarded, and the call fails with exactly the
division-by-zero error. -/
theorem ask_zero_rejection_cex :
    ask envW 3 (sW 0 0) = .error (.zeroDivision, sW 0 0) := rfl

/-- Claim C2, amended: when `rejection_samples == 0`, every call to
`ask`, at every iteration counter value, fails with the division-by-zero
error raised by the unguarded modulus test `(i + 1) % rejection_samples`,
leaving the state unchanged. -/
theorem ask_zero_rejection_div_error {N d : ℕ} (env : AskEnv N d) (fuel : ℕ)
    (s : AskState N d) (h : s.rejection_samples = 0) :
    ask env fuel s = .error (.zeroDivision, s) := by
  unfold ask refitDecision pymod
  rw [h]
  simp [Except.bind]

theorem ask_zero_rejection_wit :
    ask envW 5 (sW 0 3) = .error (.zeroDivision, sW 0 3) :=
  ask_zero_rejection_div_error envW 5 (sW 0 3) rfl

/-- Claim C3, counterexample: a `set_hyper_parameters` call with a valid
rate `1/4`, a valid gap `5` and the invalid enlargement factor `1` fails,
but the stored gap has already been changed from `20` to `5` (and the
rate from `1/2` to `1/4`): the update is not atomic. -/
theorem set_hyper_parameters_not_atomic_cex :
    set_hyper_parameters (fun _ => true) hpW xBadW = .error (.badEnlargement, hpWMut) ∧
      hpWMut.ellipsoid_update_gap ≠ hpW.ellipsoid_update_gap := by
  have hpy : pyint (xBadW 1) = 5 := by
    rw [show xBadW 1 = 5 from rfl]
    unfold pyint
    norm_num
  have e1 : set_active_points_rate (fun _ => true) hpW (xBadW 0) =
      .ok { hpW with active_points_rate := 1 / 4 } := rfl
  have e2 : set_ellipsoid_update_gap { hpW with active_points_rate := 1 / 4 } (xBadW 1) =
      .ok hpWMut := by
    unfold set_ellipsoid_update_gap
    rw [hpy]
    norm_num [hpWMut]
  have e3 : set_enlargement_factor hpWMut (xBadW 2) = .error (.badEnlargement, hpWMut) := by
    unfold set_enlargement_factor
    rw [show xBadW 2 = 1 from rfl]
    norm_num
  refine ⟨?_, by decide⟩
  unfold set_hyper_parameters
  simp only [e1, e2, e3]

/-- Claim C3, amended: `set_hyper_parameters` applies the three setters
in sequence (active points rate, ellipsoid update gap, enlargement
factor); when the first two components are valid and the enlargement
factor is invalid (`x 2 ≤ 1`), the call fails, but the rate and the gap
have already been updated to the new values, so the update is sequential,
not atomic. -/
theorem set_hyper_parameters_seq (rateOk : ℚ → Bool) (s : HyperParams) (x : Fin 3 → ℚ)
    (h0 : rateOk (x 0) = true) (h1 : 1 < pyint (x 1)) (h2 : x 2 ≤ 1) :
    set_hyper_parameters rateOk s x =
      .error (.badEnlargement,
        { s with active_points_rate := x 0, ellipsoid_update_gap := pyint (x 1) }) := by
  have e1 : set_active_points_rate rateOk s (x 0) = .ok { s with active_points_rate := x 0 } := by
    unfold set_active_points_rate
    rw [h0]
    simp
  have e2 : set_ellipsoid_update_gap { s with active_points_rate := x 0 } (x 1) =
      .ok { s with active_points_rate := x 0, ellipsoid_update_gap := pyint (x 1) } := by
    unfold set_ellipsoid_update_gap
    rw [if_neg (by omega)]
  have e3 : set_enlargement_factor
      { s with active_points_rate := x 0, ellipsoid_update_gap := pyint (x 1) } (x 2) =
      .error (.badEnlargement,
        { s with active_points_rate := x 0, ellipsoid_update_gap := pyint (x 1) }) := by
    unfold set_enlargement_factor
    rw [if_pos h2]
  unfold set_hyper_parameters
  simp only [e1, e2, e3]

theorem set_hyper_parameters_seq_wit :
    set_hyper_parameters (fun q => decide (0 < q)) hpW xBadW =
      .error (.badEnlargement,
        { hpW with active_points_rate := xBadW 0, ellipsoid_update_gap := pyint (xBadW 1) }) :=
  set_hyper_parameters_seq (fun q => decide (0 < q)) hpW xBadW
    (by simp only [decide_eq_true_eq]; rw [show xBadW 0 = 1 / 4 from rfl]; norm_num)
    (by rw [show xBadW 1 = 5 from rfl]; unfold pyint; norm_num)
    (by rw [show xBadW 2 = 1 from rfl])

/-- Claim C8: each individual setter raises exactly on its invalid
arguments (`x ≤ 1` for the enlargement factor, `int(x) ≤ 1` for the
update gap, `x < 0` for the rejection samples), the raising branch
leaves the stored state unchanged, and the non-raising branch stores the
argument (integer-converted for the gap). -/
theorem setters_validate_and_assign (s : HyperParams) (x : ℚ) :
    (set_enlargement_factor s x = .error (.badEnlargement, s) ↔ x ≤ 1) ∧
    (set_enlargement_factor s x = .ok { s with enlargement_factor := x } ↔ 1 < x) ∧
    (set_ellipsoid_update_gap s x = .error (.badGap, s) ↔ pyint x ≤ 1) ∧
    (set_ellipsoid_update_gap s x = .ok { s with ellipsoid_update_gap := pyint x } ↔
      1 < pyint x) ∧
    (set_rejection_samples s x = .error (.badRejection, s) ↔ x < 0) ∧
    (set_rejection_samples s x = .ok { s with rejection_samples := x } ↔ 0 ≤ x) := by
  unfold set_enlargement_factor set_ellipsoid_update_gap set_rejection_samples
  refine ⟨?_, ?_, ?_, ?_, ?_, ?_⟩ <;> split_ifs with h
  · exact iff_of_true rfl h
  · exact iff_of_false (by simp) h
  · exact iff_of_false (by simp) (not_lt.mpr h)
  · exact iff_of_true rfl (not_le.mp h)
  · exact iff_of_true rfl h
  · exact iff_of_false (by simp) h
  · exact iff_of_false (by simp) (not_lt.mpr h)
  · exact iff_of_true rfl (not_le.mp h)
  · exact iff_of_true rfl h
  · exact iff_of_false (by simp) h
  · exact iff_of_false (by simp) (not_le.mpr h)
  · exact iff_of_true rfl (not_lt.mp h)

theorem askDraw_post {N d : ℕ} (env : AskEnv N d) (s : AskState N d) :
    askPost (askDraw env s) = s := by
  unfold askDraw
  split_ifs
  · rfl
  · cases hrej : reject_ellipsoid_sample env s.enlargement_factor s.A s.centroid with
    | error e => simp only [hrej]; rfl
    | ok q => simp only [hrej]; rfl

theorem askDraw_cases {N d : ℕ} (env : AskEnv N d) (s : AskState N d) (p : Fin d → ℚ)
    (s2 : AskState N d) (h : askDraw env s = .ok (p, s2)) :
    s2 = s ∧
      ((s.i < s.rejection_samples ∧ p = env.prior_sample) ∨
        (¬ s.i < s.rejection_samples ∧
          reject_ellipsoid_sample env s.enlargement_factor s.A s.centroid = .ok p)) := by
  unfold askDraw at h
  by_cases hi : s.i < s.rejection_samples
  · rw [if_pos hi] at h
    simp only [Except.ok.injEq, Prod.mk.injEq] at h
    exact ⟨h.2.symm, Or.inl ⟨hi, h.1.symm⟩⟩
  · rw [if_neg hi] at h
    cases hrej : reject_ellipsoid_sample env s.enlargement_factor s.A s.centroid with
    | error e =>
      rw [hrej] at h
      exact absurd h (by simp)
    | ok q =>
      rw [hrej] at h
      simp only [Except.ok.injEq, Prod.mk.injEq] at h
      exact ⟨h.2.symm, Or.inr ⟨hi, by rw [h.1]⟩⟩

/-- Claim C10: a call to `ask` leaves the iteration counter, the active
set and the three hyper-parameters unchanged (whether it returns or
raises), and the cached ellipsoid `_A`, `_centroid` is unchanged whenever
the refit condition does not fire. -/
theorem ask_frame_condition {N d : ℕ} (env : AskEnv N d) (fuel : ℕ) (s : AskState N d) :
    (askPost (ask env fuel s)).i = s.i ∧
    (askPost (ask env fuel s)).m_active = s.m_active ∧
    (askPost (ask env fuel s)).rejection_samples = s.rejection_samples ∧
    (askPost (ask env fuel s)).ellipsoid_update_gap = s.ellipsoid_update_gap ∧
    (askPost (ask env fuel s)).enlargement_factor = s.enlargement_factor ∧
    (refitDecision s.rejection_samples s.ellipsoid_update_gap s.i = .ok false →
      (askPost (ask env fuel s)).A = s.A ∧ (askPost (ask env fuel s)).centroid = s.centroid) := by
  unfold ask
  cases hres : refitDecision s.rejection_samples s.ellipsoid_update_gap s.i with
  | error e =>
    exact ⟨rfl, rfl, rfl, rfl, rfl, fun hc => Except.noConfusion hc⟩
  | ok b =>
    cases b with
    | false =>
      rw [askDraw_post]
      exact ⟨rfl, rfl, rfl, rfl, rfl, fun _ => ⟨rfl, rfl⟩⟩
    | true =>
      cases hm : minimum_volume_ellipsoid (activeParams s) (1 / 1000) fuel with
      | error e =>
        exact ⟨rfl, rfl, rfl, rfl, rfl, fun hc => Bool.noConfusion (Except.ok.inj hc)⟩
      | ok Ac =>
        rw [askDraw_post]
        exact ⟨rfl, rfl, rfl, rfl, rfl, fun hc => Bool.noConfusion (Except.ok.inj hc)⟩

theorem ask_frame_condition_wit :
    (askPost (ask envW 3 (sW 5 0))).i = (sW 5 0).i ∧
    (askPost (ask envW 3 (sW 5 0))).m_active = (sW 5 0).m_active ∧
    (askPost (ask envW 3 (sW 5 0))).rejection_samples = (sW 5 0).rejection_samples ∧
    (askPost (ask envW 3 (sW 5 0))).ellipsoid_update_gap = (sW 5 0).ellipsoid_update_gap ∧
    (askPost (ask envW 3 (sW 5 0))).enlargement_factor = (sW 5 0).enlargement_factor ∧
    (refitDecision (sW 5 0).rejection_samples (sW 5 0).ellipsoid_update_gap (sW 5 0).i =
        .ok false →
      (askPost (ask envW 3 (sW 5 0))).A = (sW 5 0).A ∧
        (askPost (ask envW 3 (sW 5 0))).centroid = (sW 5 0).centroid) :=
  ask_frame_condition envW 3 (sW 5 0)

/-- Claim C5: for `rejection_samples = R > 0`, a successful `ask` call
returns the prior draw exactly when `i < R` and an ellipsoid draw (via
`_reject_ellipsoid_sample`, with the enlargement factor applied to the
cached ellipsoid) exactly when `i ≥ R`; the phase depends on nothing but
the iteration counter. -/
theorem ask_phase_of_iteration {N d : ℕ} (env : AskEnv N d) (fuel : ℕ) (s : AskState N d)
    (p : Fin d → ℚ) (s2 : AskState N d) (hR : 0 < s.rejection_samples)
    (h : ask env fuel s = .ok (p, s2)) :
    (s.i < s.rejection_samples → p = env.prior_sample) ∧
    (s.rejection_samples ≤ s.i →
      reject_ellipsoid_sample env s.enlargement_factor s2.A s2.centroid = .ok p) := by
  unfold ask at h
  cases hres : refitDecision s.rejection_samples s.ellipsoid_update_gap s.i with
  | error e =>
    rw [hres] at h
    exact absurd h (by simp)
  | ok b =>
    rw [hres] at h
    cases b with
    | false =>
      obtain ⟨hs2, hcase⟩ := askDraw_cases env s p s2 h
      subst hs2
      rcases hcase with ⟨hi, hp⟩ | ⟨hi, hrej⟩
      · exact ⟨fun _ => hp, fun hge => absurd hi (by omega)⟩
      · exact ⟨fun hlt => absurd hlt hi, fun _ => hrej⟩
    | true =>
      cases hm : minimum_volume_ellipsoid (activeParams s) (1 / 1000) fuel with
      | error e =>
        rw [hm] at h
        exact absurd h (by simp)
      | ok Ac =>
        rw [hm] at h
        obtain ⟨hs2, hcase⟩ := askDraw_cases env { s with A := Ac.1, centroid := Ac.2 } p s2 h
        rcases hcase with ⟨hi, hp⟩ | ⟨hi, hrej⟩
        · have hi2 : s.i < s.rejection_samples := hi
          exact ⟨fun _ => hp, fun hge => absurd hi2 (by omega)⟩
        · have hi2 : ¬ s.i < s.rejection_samples := hi
          refine ⟨fun hlt => absurd hlt hi2, fun _ => ?_⟩
          rw [hs2]
          exact hrej

theorem ask_phase_of_iteration_wit :
    ((sW 5 0).i < (sW 5 0).rejection_samples → envW.prior_sample = envW.prior_sample) ∧
    ((sW 5 0).rejection_samples ≤ (sW 5 0).i →
      reject_ellipsoid_sample envW (sW 5 0).enlargement_factor (sW 5 0).A (sW 5 0).centroid =
        .ok envW.prior_sample) :=
  ask_phase_of_iteration envW 3 (sW 5 0) envW.prior_sample (sW 5 0) (by decide) rfl

theorem detF_one (X : Matrix (Fin 1) (Fin 1) ℚ) : detF X = X 0 0 := by
  simp [detF]

theorem detF_two (X : Matrix (Fin 2) (Fin 2) ℚ) :
    detF X = X 0 0 * X 1 1 - X 1 0 * X 0 1 := by
  simp [detF, Fin.sum_univ_succ, Fin.succAbove]
  ring

theorem cofT_one (X : Matrix (Fin 1) (Fin 1) ℚ) : cofT X = Matrix.of ![![1]] := by
  ext i j
  fin_cases i <;> fin_cases j <;> simp [cofT, detF]

theorem cofT_two (X : Matrix (Fin 2) (Fin 2) ℚ) :
    cofT X = Matrix.of ![![X 1 1, -(X 0 1)], ![-(X 1 0), X 0 0]] := by
  ext i j
  fin_cases i <;> fin_cases j <;> simp [cofT, detF, Fin.sum_univ_succ, Fin.succAbove]

theorem sum_mveeInitU (N : ℕ) (hN : 0 < N) : (∑ j, mveeInitU N j) = 1 := by
  unfold mveeInitU
  rw [Finset.sum_const, Finset.card_univ, Fintype.card_fin, nsmul_eq_mul, mul_one_div,
    div_self]
  exact_mod_cast Nat.pos_iff_ne_zero.mp hN

theorem mveeStep_sum {m N : ℕ} (Q : Matrix (Fin m) (Fin N) ℚ) (d : ℕ) (u u2 : Fin N → ℚ)
    (hu : ∑ j, u j = 1) (h : mveeStep Q d u = .ok u2) : ∑ j, u2 j = 1 := by
  unfold mveeStep at h
  split at h
  · exact absurd h (by simp)
  · split at h
    · exact absurd h (by simp)
    · rename_i Xinv hX jdx hj
      simp only [Except.ok.injEq] at h
      subst h
      simp only [Finset.sum_add_distrib, ← Finset.mul_sum, hu, mul_one, Finset.sum_ite_eq',
        Finset.mem_univ, if_true]
      ring

theorem mveeLoop_sum {m N : ℕ} (Q : Matrix (Fin m) (Fin N) ℚ) (d : ℕ) (tol : ℚ) :
    ∀ (fuel : ℕ) (u uf : Fin N → ℚ), (∑ j, u j) = 1 →
      mveeLoop Q d tol fuel u = .ok uf → (∑ j, uf j) = 1 := by
  intro fuel
  induction fuel with
  | zero =>
    intro u uf hu h
    exact absurd h (by simp [mveeLoop])
  | succ fuel ih =>
    intro u uf hu h
    unfold mveeLoop at h
    split at h
    · exact absurd h (by simp)
    · rename_i u2 hstep
      have hu2 := mveeStep_sum Q d u u2 hu hstep
      split at h
      · obtain rfl := Except.ok.inj h
        exact hu2
      · exact ih u2 uf hu2 h

/-- Claim C9: inside `_minimum_volume_ellipsoid` the weight vector is an
invariant probability vector under exact arithmetic: the uniform start
`u = 1/N` sums to `1`, one loop update `u2 = (1-s) u + s e_jdx` preserves
the sum, and the weights the loop terminates with (from which the
centroid is then formed) sum to `1`. -/
theorem mvee_weights_sum_one {m N : ℕ} (Q : Matrix (Fin m) (Fin N) ℚ) (d : ℕ)
    (tol : ℚ) (fuel : ℕ) (u u2 uf : Fin N → ℚ) (hN : 0 < N)
    (hu : ∑ j, u j = 1) (hstep : mveeStep Q d u = .ok u2)
    (hloop : mveeLoop Q d tol fuel (mveeInitU N) = .ok uf) :
    (∑ j, mveeInitU N j) = 1 ∧ (∑ j, u2 j) = 1 ∧ (∑ j, uf j) = 1 :=
  ⟨sum_mveeInitU N hN, mveeStep_sum Q d u u2 hu hstep,
    mveeLoop_sum Q d tol fuel (mveeInitU N) uf (sum_mveeInitU N hN) hloop⟩

theorem hXseg : mveeQ Pseg * Matrix.diagonal uHalf * (mveeQ Pseg)ᵀ =
    Matrix.of ![![1 / 2, 1 / 2], ![1 / 2, 1]] := by
  ext i j
  fin_cases i <;> fin_cases j <;>
    simp [mveeQ, Pseg, uHalf, Matrix.mul_apply, Matrix.diagonal, Fin.sum_univ_two]

theorem invF_seg : invF? (Matrix.of ![![(1 : ℚ) / 2, 1 / 2], ![1 / 2, 1]]) =
    some (Matrix.of ![![4, -2], ![-2, 2]]) := by
  rw [invF?, detF_two]
  norm_num
  rw [cofT_two]
  ext i j
  fin_cases i <;> fin_cases j <;> norm_num

theorem scores_seg :
    mveeScores (mveeQ Pseg) (Matrix.of ![![4, -2], ![-2, 2]]) = fun _ => 2 := by
  funext j
  fin_cases j <;>
    simp [mveeScores, mveeQ, Pseg, Matrix.mul_apply, Fin.sum_univ_two] <;> norm_num

theorem mveeStep_seg : mveeStep (mveeQ Pseg) 1 uHalf = .ok uHalf := by
  unfold mveeStep
  rw [hXseg]
  simp only [invF_seg]
  rw [scores_seg]
  simp only [argmaxQ]
  norm_num

theorem mveeLoop_seg : mveeLoop (mveeQ Pseg) 1 (1 / 1000) 2 (mveeInitU 2) = .ok uHalf := by
  have hinit : mveeInitU 2 = uHalf := by
    funext j
    simp [mveeInitU, uHalf]
  rw [hinit]
  unfold mveeLoop
  simp only [mveeStep_seg]
  norm_num

theorem mvee_weights_sum_one_wit :
    (∑ j, mveeInitU 2 j) = 1 ∧ (∑ j, uHalf j) = 1 ∧ (∑ j, uHalf j) = 1 :=
  mvee_weights_sum_one (mveeQ Pseg) 1 (1 / 1000) 2 uHalf uHalf uHalf (by omega)
    (by simp [uHalf, Fin.sum_univ_two]) mveeStep_seg mveeLoop_seg

/-- Claim C4, amended: `_minimum_volume_ellipsoid` has no explicit
degeneracy or conditioning check of its own; it fails exactly when a
matrix handed to `la.inv` is exactly singular (propagating the library's
generic singular-matrix error, here shown for a singular initial weighted
scatter matrix), while near-singular input raises nothing: on heavily
degenerate but affinely independent points it silently returns a finite
(hugely elongated) ellipsoid. -/
theorem mvee_exact_singular_error {N dd : ℕ} (P : Fin N → Fin dd → ℚ) (tol : ℚ) (fuel : ℕ)
    (hfuel : 0 < fuel)
    (hsing : detF (mveeQ P * Matrix.diagonal (mveeInitU N) * (mveeQ P)ᵀ) = 0) :
    minimum_volume_ellipsoid P tol fuel = .error .singularMatrix := by
  obtain ⟨f, rfl⟩ : ∃ f, fuel = f + 1 := ⟨fuel - 1, by omega⟩
  unfold minimum_volume_ellipsoid mveeLoop mveeStep invF?
  rw [if_pos hsing]

theorem mvee_exact_singular_error_wit :
    minimum_volume_ellipsoid Pcoin (1 / 1000) 3 = .error .singularMatrix := by
  have hX : mveeQ Pcoin * Matrix.diagonal (mveeInitU 2) * (mveeQ Pcoin)ᵀ =
      Matrix.of ![![0, 0], ![0, 1]] := by
    ext i j
    fin_cases i <;> fin_cases j <;>
      simp [mveeQ, Pcoin, mveeInitU, Matrix.mul_apply, Matrix.diagonal, Fin.sum_univ_two] <;>
      norm_num
  exact mvee_exact_singular_error Pcoin (1 / 1000) 3 (by omega)
    (by rw [hX, detF_two]; norm_num)

theorem hXnear : mveeQ Pnear * Matrix.diagonal uHalf * (mveeQ Pnear)ᵀ =
    Matrix.of ![![1 / 2000000000000, 1 / 2000000], ![1 / 2000000, 1]] := by
  ext i j
  fin_cases i <;> fin_cases j <;>
    simp [mveeQ, Pnear, uHalf, Matrix.mul_apply, Matrix.diagonal, Fin.sum_univ_two] <;>
    norm_num

theorem invF_near :
    invF? (Matrix.of ![![(1 : ℚ) / 2000000000000, 1 / 2000000], ![1 / 2000000, 1]]) =
      some (Matrix.of ![![4000000000000, -2000000], ![-2000000, 2]]) := by
  rw [invF?, detF_two]
  norm_num
  rw [cofT_two]
  ext i j
  fin_cases i <;> fin_cases j <;> norm_num

theorem scores_near :
    mveeScores (mveeQ Pnear) (Matrix.of ![![4000000000000, -2000000], ![-2000000, 2]]) =
      fun _ => 2 := by
  funext j
  fin_cases j <;>
    simp [mveeScores, mveeQ, Pnear, Matrix.mul_apply, Fin.sum_univ_two] <;> norm_num

theorem mveeStep_near : mveeStep (mveeQ Pnear) 1 uHalf = .ok uHalf := by
  unfold mveeStep
  rw [hXnear]
  simp only [invF_near]
  rw [scores_near]
  simp only [argmaxQ]
  norm_num

theorem mveeLoop_near : mveeLoop (mveeQ Pnear) 1 (1 / 1000) 2 (mveeInitU 2) = .ok uHalf := by
  have hinit : mveeInitU 2 = uHalf := by
    funext j
    simp [mveeInitU, uHalf]
  rw [hinit]
  unfold mveeLoop
  simp only [mveeStep_near]
  norm_num

/-- Claim C4, counterexample: the nearly degenerate cloud `Pnear` (two
points within `1/1000000` of each other, so with a near-singular scatter
and covariance) raises no degenerate-geometry error: the estimator
silently returns the finite ellipsoid `A = [[4·10¹²]]`, `c = 1/2000000`. -/
theorem mvee_near_singular_cex :
    (∀ j, 0 ≤ Pnear j 0 ∧ Pnear j 0 ≤ 1 / 1000000) ∧
      minimum_volume_ellipsoid Pnear (1 / 1000) 2 =
        .ok (Matrix.of ![![4000000000000]], fun _ => 1 / 2000000) := by
  constructor
  · intro j
    fin_cases j <;> constructor <;> simp [Pnear] <;> norm_num
  · have hc : Matrix.vecMul uHalf (Matrix.of fun j k => Pnear j k) =
        fun _ => (1 : ℚ) / 2000000 := by
      funext k
      fin_cases k
      simp [Matrix.vecMul, Matrix.dotProduct, uHalf, Pnear, Fin.sum_univ_two]
      norm_num
    have hs : ((Matrix.of fun j k => Pnear j k)ᵀ * Matrix.diagonal uHalf *
          Matrix.of fun j k => Pnear j k) -
          (Matrix.of fun a b =>
            Matrix.vecMul uHalf (Matrix.of fun j k => Pnear j k) a *
              Matrix.vecMul uHalf (Matrix.of fun j k => Pnear j k) b) =
        Matrix.of ![![1 / 4000000000000]] := by
      ext a b
      fin_cases a
      fin_cases b
      simp [Matrix.mul_apply, Matrix.vecMul, Matrix.dotProduct, Matrix.diagonal, uHalf, Pnear,
        Fin.sum_univ_two]
      norm_num
    have hi1 : invF? (Matrix.of ![![(1 : ℚ) / 4000000000000]]) =
        some (Matrix.of ![![4000000000000]]) := by
      rw [invF?, detF_one]
      norm_num
      rw [cofT_one]
      ext a b
      fin_cases a
      fin_cases b
      norm_num
    unfold minimum_volume_ellipsoid
    simp only [mveeLoop_near]
    rw [hs]
    simp only [hi1]
    rw [hc]
    simp

theorem mveeScores_eq_spec {m N : ℕ} (Q : Matrix (Fin m) (Fin N) ℚ)
    (Xinv : Matrix (Fin m) (Fin m) ℚ) : mveeScores Q Xinv = mveeSpecScores Q Xinv := by
  funext j
  unfold mveeScores mveeSpecScores
  simp only [Matrix.mul_apply, Matrix.mulVec, Matrix.dotProduct, Matrix.transpose_apply,
    Finset.sum_mul, Finset.mul_sum]
  rw [Finset.sum_comm]
  apply Finset.sum_congr rfl
  intro a _
  apply Finset.sum_congr rfl
  intro b _
  ring

theorem mveeStep_eq_spec {m N : ℕ} (Q : Matrix (Fin m) (Fin N) ℚ) (d : ℕ)
    (u : Fin N → ℚ) : mveeStep Q d u = mveeSpecStep Q d u := by
  unfold mveeStep mveeSpecStep
  simp only [mveeScores_eq_spec]

theorem mveeLoop_eq_spec {m N : ℕ} (Q : Matrix (Fin m) (Fin N) ℚ) (d : ℕ) (tol : ℚ) :
    ∀ (fuel : ℕ) (u : Fin N → ℚ), mveeLoop Q d tol fuel u = mveeSpecLoop Q d tol fuel u := by
  intro fuel
  induction fuel with
  | zero => intro u; rfl
  | succ fuel ih =>
    intro u
    unfold mveeLoop mveeSpecLoop
    rw [← mveeStep_eq_spec]
    cases hst : mveeStep Q d u with
    | error e => rfl
    | ok u2 =>
      by_cases h : (∑ j, (u2 j - u j) ^ 2) ≤ tol ^ 2
      · simp [h]
      · simp [h, ih]

/-- Claim C7: `_minimum_volume_ellipsoid` computes exactly the
multiplicative-weight fixed-point iteration the spec describes: same
homogeneous lift, same uniform start, same scores, argmax, step size,
weight update and stopping rule, and the same final centroid
`c = Σ u_j p_j` and matrix `A = [(Σ u_j p_j p_jᵀ) - c cᵀ]⁻¹ / d`. -/
theorem mvee_matches_spec_algorithm {N dd : ℕ} (P : Fin N → Fin dd → ℚ) (tol : ℚ)
    (fuel : ℕ) : minimum_volume_ellipsoid P tol fuel = mveeSpec P tol fuel := by
  unfold minimum_volume_ellipsoid mveeSpec
  rw [mveeLoop_eq_spec]
  cases hloop : mveeSpecLoop (mveeQ P) dd tol fuel (mveeInitU N) with
  | error e => rfl
  | ok u =>
    have hc : Matrix.vecMul u (Matrix.of fun j k => P j k) =
        fun k => ∑ j, u j * P j k := by
      funext k
      simp [Matrix.vecMul, Matrix.dotProduct]
    have hmat : (((Matrix.of fun j k => P j k)ᵀ * Matrix.diagonal u *
          Matrix.of fun j k => P j k) -
          Matrix.of fun a b =>
            Matrix.vecMul u (Matrix.of fun j k => P j k) a *
              Matrix.vecMul u (Matrix.of fun j k => P j k) b) =
        Matrix.of fun a b =>
          (∑ j, u j * P j a * P j b) - (∑ j, u j * P j a) * (∑ j, u j * P j b) := by
      ext a b
      simp only [Matrix.sub_apply, Matrix.of_apply, Matrix.mul_apply, Matrix.diagonal_apply,
        Matrix.transpose_apply, Matrix.vecMul, Matrix.dotProduct, mul_ite, ite_mul, mul_zero,
        zero_mul, Finset.sum_ite_eq', Finset.mem_univ, if_true]
      congr 1
      apply Finset.sum_congr rfl
      intro k _
      ring
    simp only []
    rw [hmat, hc]

/-- Claim C6: with `covmat = la.inv((1/f)·A)` eigendecomposed as
`v diag(e) vᵀ` (orthonormal `v`, positive `e`, which is what `la.eig`
returns on this symmetric positive-definite input, in any order), every
point `x` that `_reject_ellipsoid_sample` builds from a uniform radius
draw `r ∈ [0,1)` and a nonzero normal draw `pt` satisfies
`(x-c)ᵀ (A/f) (x-c) ≤ 1`. -/
theorem draw_in_enlarged_ellipsoid {n : ℕ} (f : ℝ) (A covmat v : Matrix (Fin n) (Fin n) ℝ)
    (e : Fin n → ℝ) (cent : Fin n → ℝ) (r : ℝ) (pt : Fin n → ℝ)
    (hf : 1 < f)
    (hinv : (f⁻¹ • A) * covmat = 1)
    (hcov : covmat = v * Matrix.diagonal e * vᵀ)
    (hv : vᵀ * v = 1)
    (he : ∀ k, 0 < e k)
    (hr0 : 0 ≤ r) (hr1 : r < 1) (hpt : pt ≠ 0) :
    (fun k => draw_from_ellipsoid e v cent r pt k - cent k) ⬝ᵥ
      (f⁻¹ • A).mulVec (fun k => draw_from_ellipsoid e v cent r pt k - cent k) ≤ 1 := by
  classical
  set w : Fin n → ℝ :=
    fun k =>
      Real.sqrt (e k) *
        (r ^ ((1 : ℝ) / (n : ℝ)) / Real.sqrt (∑ k2, pt k2 ^ 2) * pt k) with hw
  have hS : 0 < ∑ k2, pt k2 ^ 2 := by
    obtain ⟨k0, hk0⟩ := Function.ne_iff.mp hpt
    exact Finset.sum_pos' (fun i _ => sq_nonneg _)
      ⟨k0, Finset.mem_univ _, lt_of_le_of_ne (sq_nonneg _) (Ne.symm (pow_ne_zero 2 hk0))⟩
  have hvvT : v * vᵀ = 1 := Matrix.mul_eq_one_comm.mp hv
  have hDinvD :
      Matrix.diagonal (fun k => (e k)⁻¹) * Matrix.diagonal e = 1 := by
    rw [Matrix.diagonal_mul_diagonal]
    rw [show (fun k => (e k)⁻¹ * e k) = fun _ => (1 : ℝ) from
      funext fun k => inv_mul_cancel₀ (ne_of_gt (he k))]
    exact Matrix.diagonal_one
  have hleft : (v * Matrix.diagonal (fun k => (e k)⁻¹) * vᵀ) * covmat = 1 := by
    rw [hcov]
    calc (v * Matrix.diagonal (fun k => (e k)⁻¹) * vᵀ) * (v * Matrix.diagonal e * vᵀ)
        = v * (Matrix.diagonal (fun k => (e k)⁻¹) *
            (vᵀ * (v * (Matrix.diagonal e * vᵀ)))) := by
          simp only [Matrix.mul_assoc]
      _ = v * (Matrix.diagonal (fun k => (e k)⁻¹) * (Matrix.diagonal e * vᵀ)) := by
          rw [← Matrix.mul_assoc vᵀ v, hv, Matrix.one_mul]
      _ = v * ((Matrix.diagonal (fun k => (e k)⁻¹) * Matrix.diagonal e) * vᵀ) := by
          rw [Matrix.mul_assoc]
      _ = v * vᵀ := by rw [hDinvD, Matrix.one_mul]
      _ = 1 := hvvT
  have hB : f⁻¹ • A = v * Matrix.diagonal (fun k => (e k)⁻¹) * vᵀ := by
    calc f⁻¹ • A = 1 * (f⁻¹ • A) := (Matrix.one_mul _).symm
      _ = ((v * Matrix.diagonal (fun k => (e k)⁻¹) * vᵀ) * covmat) * (f⁻¹ • A) := by
          rw [hleft]
      _ = (v * Matrix.diagonal (fun k => (e k)⁻¹) * vᵀ) * (covmat * (f⁻¹ • A)) :=
          Matrix.mul_assoc _ _ _
      _ = (v * Matrix.diagonal (fun k => (e k)⁻¹) * vᵀ) * 1 := by
          rw [Matrix.mul_eq_one_comm.mp hinv]
      _ = _ := Matrix.mul_one _
  have hx : (fun k => draw_from_ellipsoid e v cent r pt k - cent k) = v.mulVec w := by
    funext k
    unfold draw_from_ellipsoid
    rw [hw]
    ring
  rw [hx, hB]
  have hmv : (v * Matrix.diagonal (fun k => (e k)⁻¹) * vᵀ).mulVec (v.mulVec w) =
      v.mulVec ((Matrix.diagonal (fun k => (e k)⁻¹)).mulVec w) := by
    rw [Matrix.mulVec_mulVec, Matrix.mul_assoc (v * Matrix.diagonal fun k => (e k)⁻¹) vᵀ v,
      hv, Matrix.mul_one, ← Matrix.mulVec_mulVec]
  rw [hmv]
  have horth : ∀ z, (v.mulVec w) ⬝ᵥ (v.mulVec z) = w ⬝ᵥ z := by
    intro z
    rw [Matrix.dotProduct_mulVec, ← Matrix.mulVec_transpose, Matrix.mulVec_mulVec, hv,
      Matrix.one_mulVec]
  rw [horth]
  have hsum : w ⬝ᵥ (Matrix.diagonal (fun k => (e k)⁻¹)).mulVec w =
      ∑ k, (r ^ ((1 : ℝ) / (n : ℝ)) / Real.sqrt (∑ k2, pt k2 ^ 2)) ^ 2 * pt k ^ 2 := by
    unfold Matrix.dotProduct
    apply Finset.sum_congr rfl
    intro k _
    rw [Matrix.mulVec_diagonal, hw]
    rw [show Real.sqrt (e k) *
          (r ^ ((1 : ℝ) / (n : ℝ)) / Real.sqrt (∑ k2, pt k2 ^ 2) * pt k) *
          ((e k)⁻¹ *
            (Real.sqrt (e k) *
              (r ^ ((1 : ℝ) / (n : ℝ)) / Real.sqrt (∑ k2, pt k2 ^ 2) * pt k))) =
        Real.sqrt (e k) * Real.sqrt (e k) * (e k)⁻¹ *
          ((r ^ ((1 : ℝ) / (n : ℝ)) / Real.sqrt (∑ k2, pt k2 ^ 2)) ^ 2 * pt k ^ 2) from by
      ring]
    rw [Real.mul_self_sqrt (he k).le, mul_inv_cancel₀ (ne_of_gt (he k)), one_mul]
  rw [hsum, ← Finset.mul_sum]
  rw [div_pow, Real.sq_sqrt hS.le]
  rw [div_mul_cancel₀ _ (ne_of_gt hS)]
  have ht0 : 0 ≤ r ^ ((1 : ℝ) / (n : ℝ)) := Real.rpow_nonneg hr0 _
  have ht1 : r ^ ((1 : ℝ) / (n : ℝ)) ≤ 1 := Real.rpow_le_one hr0 hr1.le (by positivity)
  nlinarith [ht0, ht1]

theorem draw_in_enlarged_ellipsoid_wit :
    (fun k : Fin 1 =>
        draw_from_ellipsoid (fun _ => 1) 1 (fun _ => 0) 0 (fun _ => 1) k -
          (fun _ : Fin 1 => (0 : ℝ)) k) ⬝ᵥ
      (((2 : ℝ))⁻¹ • ((2 : ℝ) • (1 : Matrix (Fin 1) (Fin 1) ℝ))).mulVec
        (fun k : Fin 1 =>
          draw_from_ellipsoid (fun _ => 1) 1 (fun _ => 0) 0 (fun _ => 1) k -
            (fun _ : Fin 1 => (0 : ℝ)) k) ≤ 1 :=
  draw_in_enlarged_ellipsoid 2 ((2 : ℝ) • 1) 1 1 (fun _ => 1) (fun _ => 0) 0 (fun _ => 1)
    (by norm_num)
    (by rw [Matrix.mul_one, smul_smul]; norm_num)
    (by simp)
    (by simp)
    (fun k => by norm_num)
    le_rfl
    (by norm_num)
    (by intro h; simpa using congrFun h 0)
